import Mathlib

/-!
Shallow embedding of the `jsonseq` Go package (RFC 7464 JSON text sequences):
the record classifier `RecordValue`, the `bufio.SplitFunc` splitter
`ScanRecord`, and the record writer `WriteRecord`, together with drivers that
model the `bufio.Scanner` loop and the streaming `Decoder`.

Bytes are modelled as `Nat`; a byte slice is a `List Nat`.  A Go function that
can panic (index out of range) is modelled with an `Option` result, `none`
standing for the panic.
-/

namespace Jsonseq

/-- ASCII record separator, 0x1E. -/
def rs : Nat := 0x1E

/-- ASCII line feed, 0x0A. -/
def lf : Nat := 0x0A

/-- ASCII space, 0x20. -/
def sp : Nat := 0x20

/-- ASCII horizontal tab, 0x09. -/
def tb : Nat := 0x09

/-- ASCII carriage return, 0x0D. -/
def cr : Nat := 0x0D

/-- The whitespace set `wsSet` from the source: space, tab, line feed,
carriage return (RFC 7159 section 2). -/
def wsSet : List Nat := [sp, tb, lf, cr]

/-- Model of `wsByte` (and of `wsRune` restricted to the byte values that can
satisfy it): membership in `wsSet`. -/
def wsByte (b : Nat) : Bool := wsSet.contains b

/-- The cutset string `digitSet = "1234567980"` from the source, as byte
values. -/
def digitSet : List Nat := [0x31, 0x32, 0x33, 0x34, 0x35, 0x36, 0x37, 0x39, 0x38, 0x30]

/-- Model of `bytes.TrimLeftFunc(b, wsRune)`: drop leading whitespace bytes
(all members of `wsSet` are ASCII, so the rune-level trim coincides with the
byte-level trim). -/
def trimLeftWs (b : List Nat) : List Nat := b.dropWhile (fun c => wsByte c)

/-- Model of `bytes.TrimLeft(b, digitSet)`: drop leading bytes that are
members of the cutset (all cutset members are ASCII digits). -/
def trimLeftDigits (b : List Nat) : List Nat := b.dropWhile (fun c => digitSet.contains c)

/-- Model of `bytes.IndexByte`: index of the first occurrence of `c` in `l`,
`none` when absent (Go returns `-1`). -/
def indexByte (l : List Nat) (c : Nat) : Option Nat :=
  match l with
  | [] => none
  | a :: restBytes => if a = c then some 0 else (indexByte restBytes c).map (· + 1)

/-- Byte values of the keyword `null`. -/
def kwNull : List Nat := [0x6E, 0x75, 0x6C, 0x6C]

/-- Byte values of the keyword `true`. -/
def kwTrue : List Nat := [0x74, 0x72, 0x75, 0x65]

/-- Byte values of the keyword `false`. -/
def kwFalse : List Nat := [0x66, 0x61, 0x6C, 0x73, 0x65]

/-- Model of `RecordValue` from `jsonseq.go`.  Returns `none` where the Go
code panics with an index-out-of-range (`b[0]` on an empty slice after the
whitespace trim, `b[4]` / `b[5]` after a keyword prefix match when the slice
is exactly the keyword, `b[1]` after a lone minus sign); otherwise
`some (value bytes, record valid flag)`, exactly as the source computes them. -/
def recordValue (b : List Nat) : Option (List Nat × Bool) :=
  if b.length < 2 then some (b, false)
  else if b.headD 0 ≠ rs then some (b, false)
  else
    let b := trimLeftWs b.tail
    match b.get? 0 with
    | none => none
    | some c =>
      if c = 0x6E then
        if kwNull.isPrefixOf b then
          match b.get? 4 with
          | none => none
          | some d => if wsByte d then some (b, true) else some (b, false)
        else some (b, true)
      else if c = 0x74 then
        if kwTrue.isPrefixOf b then
          match b.get? 4 with
          | none => none
          | some d => if wsByte d then some (b, true) else some (b, false)
        else some (b, true)
      else if c = 0x66 then
        if kwFalse.isPrefixOf b then
          match b.get? 5 with
          | none => none
          | some d => if wsByte d then some (b, true) else some (b, false)
        else some (b, true)
      else if c = 0x2D then
        match b.get? 1 with
        | none => none
        | some d =>
          if 0x30 ≤ d ∧ d ≤ 0x39 then
            let t := trimLeftDigits b
            if 0 < t.length ∧ wsByte (t.headD 0) then some (b, true) else some (b, false)
          else some (b, true)
      else if 0x30 ≤ c ∧ c ≤ 0x39 then
        let t := trimLeftDigits b
        if 0 < t.length ∧ wsByte (t.headD 0) then some (b, true) else some (b, false)
      else some (b, true)

/-- Model of the loop `for len(data) > 1 && data[1] == rs { data = data[1:] }`
in `ScanRecord` that drops consecutive leading record separators. -/
def dropConsec : List Nat → List Nat
  | [] => []
  | [a] => [a]
  | a :: b :: restBytes => if b = rs then dropConsec (b :: restBytes) else a :: b :: restBytes

/-- Model of `ScanRecord` from `jsonseq.go`, a `bufio.SplitFunc`:
`(advance, token, error)` where `token = none` models a nil token slice and
the error component models the returned `error` (always nil in the source).
The Go code reassigns `data` after dropping consecutive separators; here the
shortened slice `dropConsec data` is written out at each use.  In the Go
`case i > 0` branch the index is `i = k + 1` with token `data[0 : i-1]`,
i.e. `advance = k + 1` and token `data.take k`. -/
def scanRecord (data : List Nat) (atEOF : Bool) : Nat × Option (List Nat) × Option String :=
  if atEOF ∧ data = [] then (0, none, none)
  else
    match indexByte data rs with
    | none =>
      if atEOF then (data.length, some data, none)
      else (0, none, none)
    | some 0 =>
      match indexByte (dropConsec data).tail rs with
      | none =>
        if atEOF then ((dropConsec data).length, some (dropConsec data), none)
        else (0, none, none)
      | some j => (1 + j, some ((dropConsec data).take (1 + j)), none)
    | some (k + 1) => (k + 1, some (data.take k), none)

/-- Model of `WriteRecord`: the bytes written to the sink, a record separator,
the JSON bytes, then a line feed. -/
def writeRecord (json : List Nat) : List Nat := [rs] ++ json ++ [lf]

/-- One pass of the `bufio.Scanner` loop over a buffer that is entirely at end
of stream: repeatedly call `scanRecord` with `atEOF = true`, drop `advance`
bytes, and collect the emitted tokens.  `fuel` bounds the iteration. -/
def splitAllFuel : Nat → List Nat → List (List Nat)
  | 0, _ => []
  | fuel + 1, buf =>
    match scanRecord buf true with
    | (_, none, _) => []
    | (adv, some tok, _) => tok :: splitAllFuel fuel (buf.drop adv)

/-- All tokens produced from a buffer at end of stream. -/
def splitAll (buf : List Nat) : List (List Nat) := splitAllFuel (buf.length + 1) buf

/-- The `bufio.Scanner` loop over a buffer when the stream end has not yet
been reported: call `scanRecord` with `atEOF = false` while it makes progress;
when it requests more data and none remains, finish with the
`atEOF = true` phase. -/
def streamRunFuel : Nat → List Nat → List (List Nat)
  | 0, _ => []
  | fuel + 1, buf =>
    match scanRecord buf false with
    | (_, none, _) => splitAll buf
    | (adv, some tok, _) => tok :: streamRunFuel fuel (buf.drop adv)

/-- All tokens produced by streaming a buffer through the scanner loop. -/
def streamRun (buf : List Nat) : List (List Nat) := streamRunFuel (buf.length + 1) buf

/-- Tokens produced when chunk `s1` is fed to `scanRecord` first (not at end
of stream) and chunk `s2` is appended to the remaining buffer before the
subsequent calls. -/
def tokensTwoChunk (s1 s2 : List Nat) : List (List Nat) :=
  match scanRecord s1 false with
  | (_, none, _) => streamRun (s1 ++ s2)
  | (adv, some tok, _) => tok :: streamRun (s1.drop adv ++ s2)

/-- Result of one `Decoder.Decode` call: a decoded record's value bytes, an
invalid-record error carrying the value bytes, a runtime panic inside
`RecordValue`, or end of stream. -/
inductive DecodeResult where
  | value (b : List Nat)
  | invalid (b : List Nat)
  | panicked
  | eof
deriving DecidableEq

/-- Model of `Decoder.Decode` on a fully buffered input at end of stream:
scan the next token, classify it with `recordValue`, and return the result
together with the remaining buffer.  The external JSON decode function is
abstracted away: `value b` records the bytes handed to it. -/
def decodeStep (buf : List Nat) : DecodeResult × List Nat :=
  match scanRecord buf true with
  | (_, none, _) => (DecodeResult.eof, buf)
  | (adv, some tok, _) =>
    match recordValue tok with
    | none => (DecodeResult.panicked, buf.drop adv)
    | some (b, ok) =>
      (if ok then DecodeResult.value b else DecodeResult.invalid b, buf.drop adv)

/-- The decode loop: call `decodeStep` until end of stream, collecting the
results.  A panic aborts the loop (as a Go panic would); an invalid-record
error is collected and the loop continues.  `fuel` bounds the iteration. -/
def decodeAllFuel : Nat → List Nat → List DecodeResult
  | 0, _ => []
  | fuel + 1, buf =>
    match decodeStep buf with
    | (DecodeResult.eof, _) => []
    | (DecodeResult.panicked, _) => [DecodeResult.panicked]
    | (r, buf2) => r :: decodeAllFuel fuel buf2

/-- All results of the decode loop over a buffer. -/
def decodeAll (buf : List Nat) : List DecodeResult := decodeAllFuel (buf.length + 1) buf

/-- Byte values of the JSON text `{"a":1}`. -/
def objBytes : List Nat := [0x7B, 0x22, 0x61, 0x22, 0x3A, 0x31, 0x7D]

end Jsonseq

namespace Jsonseq

/-- C1: the classifier `RecordValue` is claimed to return normally on every
input, in particular on RS followed only by whitespace, on a bare keyword
(RS `null`), and on RS followed by a lone minus sign.  On all three inputs the
code instead indexes out of range, i.e. panics (`none` in the model): `b[0]`
on the empty slice left after the whitespace trim, `b[4]` just past the bare
keyword, and `b[1]` just past the lone minus sign. -/
theorem c1_recordValue_panics :
    recordValue [rs, lf] = none ∧
    recordValue (rs :: kwNull) = none ∧
    recordValue [rs, 0x2D] = none := by
  decide

/-- C2: the claim says the token RS `tru` (keyword cut off mid-word) is
classified incomplete.  The code's keyword case only fires when the full
keyword is present, so RS `tru` falls through to the final `return b, true`
and is classified complete; RS `true ` is also complete (with the trailing
space kept in the value bytes). -/
theorem c2_truncated_keyword_eval :
    recordValue [rs, 0x74, 0x72, 0x75] = some ([0x74, 0x72, 0x75], true) ∧
    recordValue [rs, 0x74, 0x72, 0x75, 0x65, sp] =
      some ([0x74, 0x72, 0x75, 0x65, sp], true) := by
  decide

/-- C3: the claim says RS `-123 ` is classified complete.  In the code,
`bytes.TrimLeft(b, digitSet)` is applied to a slice that still begins with
the minus sign, which is not in the cutset, so nothing is trimmed, the first
byte of the trimmed slice is the minus sign, never whitespace, and every
negative number is classified incomplete. -/
theorem c3_negative_number_eval :
    recordValue [rs, 0x2D, 0x31, 0x32, 0x33, sp] =
      some ([0x2D, 0x31, 0x32, 0x33, sp], false) := by
  decide

/-- C4: the claim says trailing whitespace is stripped from the value bytes,
so that classifying RS `123 ` yields the bytes `123`.  The code only trims on
the left: it returns the bytes `123 ` with the trailing space kept. -/
theorem c4_trailing_whitespace_eval :
    recordValue [rs, 0x31, 0x32, 0x33, sp] = some ([0x31, 0x32, 0x33, sp], true) ∧
    some (([0x31, 0x32, 0x33, sp] : List Nat), true) ≠
      some (([0x31, 0x32, 0x33] : List Nat), true) := by
  decide

/-- C5: the claim says RS RS `{"a":1}` LF parses identically to
RS `{"a":1}` LF.  The code drops the duplicated separator from its local view
of the buffer but still reports an advance relative to the shortened slice,
so the scanner under-advances by one byte and a spurious extra token (the
final line feed) is emitted after the real record. -/
theorem c5_consecutive_separators_eval :
    streamRun (rs :: rs :: objBytes ++ [lf]) =
      [rs :: objBytes ++ [lf], [lf]] ∧
    streamRun (rs :: objBytes ++ [lf]) = [rs :: objBytes ++ [lf]] ∧
    streamRun (rs :: rs :: objBytes ++ [lf]) ≠ streamRun (rs :: objBytes ++ [lf]) := by
  decide

theorem indexByte_lt_length : ∀ {l : List Nat} {c i : Nat}, indexByte l c = some i → i < l.length := by
  intro l
  induction l with
  | nil => intro c i h; simp [indexByte] at h
  | cons a restBytes ih =>
    intro c i h
    simp only [indexByte] at h
    by_cases hac : a = c
    · rw [if_pos hac] at h
      cases h
      simp
    · rw [if_neg hac] at h
      obtain ⟨j, hj, rfl⟩ := Option.map_eq_some'.mp h
      have := ih hj
      simp only [List.length_cons]
      omega

theorem indexByte_append_some : ∀ {l : List Nat} {c i : Nat} (m : List Nat),
    indexByte l c = some i → indexByte (l ++ m) c = some i := by
  intro l
  induction l with
  | nil => intro c i m h; simp [indexByte] at h
  | cons a restBytes ih =>
    intro c i m h
    simp only [indexByte, List.cons_append] at h ⊢
    by_cases hac : a = c
    · rw [if_pos hac] at h ⊢; exact h
    · rw [if_neg hac] at h ⊢
      obtain ⟨j, hj, rfl⟩ := Option.map_eq_some'.mp h
      rw [List.append_eq, ih m hj]
      rfl

theorem indexByte_ne_nil {l : List Nat} {c i : Nat} (h : indexByte l c = some i) : l ≠ [] := by
  intro hnil
  subst hnil
  simp [indexByte] at h

theorem dropConsec_suffix : ∀ l : List Nat, dropConsec l <:+ l
  | [] => List.suffix_refl _
  | [_] => List.suffix_refl _
  | a :: b :: restBytes => by
    rw [dropConsec]
    split
    · exact (dropConsec_suffix (b :: restBytes)).trans (List.suffix_cons a (b :: restBytes))
    · exact List.suffix_refl _

theorem dropConsec_ne_nil : ∀ l : List Nat, l ≠ [] → dropConsec l ≠ []
  | [], h => absurd rfl h
  | [a], _ => by simp [dropConsec]
  | a :: b :: restBytes, _ => by
    rw [dropConsec]
    split
    · exact dropConsec_ne_nil (b :: restBytes) (by simp)
    · simp

theorem dropConsec_append : ∀ (l m : List Nat), 2 ≤ (dropConsec l).length →
    dropConsec (l ++ m) = dropConsec l ++ m
  | [], _, h => by simp [dropConsec] at h
  | [a], _, h => by simp [dropConsec] at h
  | a :: b :: restBytes, m, h => by
    by_cases hb : b = rs
    · have h2 : 2 ≤ (dropConsec (b :: restBytes)).length := by
        rw [dropConsec, if_pos hb] at h; exact h
      have hrec := dropConsec_append (b :: restBytes) m h2
      simp only [List.cons_append] at hrec ⊢
      rw [dropConsec, if_pos hb, hrec, dropConsec, if_pos hb]
    · simp only [List.cons_append]
      rw [dropConsec, if_neg hb, dropConsec, if_neg hb]
      simp

theorem scanRecord_nil (atEOF : Bool) : scanRecord [] atEOF = (0, none, none) := by
  cases atEOF <;> decide

theorem scanRecord_err (data : List Nat) (atEOF : Bool) : (scanRecord data atEOF).2.2 = none := by
  unfold scanRecord
  split
  · rfl
  · split
    · split <;> rfl
    · split
      · split <;> rfl
      · rfl
    · rfl

theorem scanRecord_adv_le (data : List Nat) (atEOF : Bool) :
    (scanRecord data atEOF).1 ≤ data.length := by
  unfold scanRecord
  split
  · simp
  · split
    · split <;> simp
    · next hi =>
      split
      · split
        · exact (dropConsec_suffix data).length_le
        · simp
      · next j hj =>
        have h1 := indexByte_lt_length hj
        have h2 := (dropConsec_suffix data).length_le
        have h3 := List.length_tail (dropConsec data)
        simp only
        omega
    · next k hk =>
      have := indexByte_lt_length hk
      simp only
      omega

theorem scanRecord_some_pos {data : List Nat} {atEOF : Bool} {adv : Nat} {tok : List Nat}
    {e : Option String} (h : scanRecord data atEOF = (adv, some tok, e)) : 1 ≤ adv := by
  unfold scanRecord at h
  split at h
  · simp at h
  · next htop =>
    split at h
    · next hi =>
      split at h
      · next heof =>
        simp only [Prod.mk.injEq, Option.some.injEq] at h
        obtain ⟨rfl, rfl, rfl⟩ := h
        have hne : data ≠ [] := by
          intro hnil
          exact htop ⟨by simpa using heof, hnil⟩
        have := List.length_pos.mpr hne
        omega
      · simp at h
    · next hi =>
      split at h
      · split at h
        · simp only [Prod.mk.injEq, Option.some.injEq] at h
          obtain ⟨rfl, rfl, rfl⟩ := h
          have hne := dropConsec_ne_nil data (indexByte_ne_nil hi)
          have := List.length_pos.mpr hne
          omega
        · simp at h
      · simp only [Prod.mk.injEq, Option.some.injEq] at h
        obtain ⟨rfl, rfl, rfl⟩ := h
        omega
    · simp only [Prod.mk.injEq, Option.some.injEq] at h
      obtain ⟨rfl, rfl, rfl⟩ := h
      omega

theorem scanRecord_tok_infix {data : List Nat} {atEOF : Bool} {adv : Nat} {tok : List Nat}
    {e : Option String} (h : scanRecord data atEOF = (adv, some tok, e)) : tok <:+: data := by
  unfold scanRecord at h
  split at h
  · simp at h
  · split at h
    · split at h
      · simp only [Prod.mk.injEq, Option.some.injEq] at h
        obtain ⟨rfl, rfl, rfl⟩ := h
        exact List.infix_refl _
      · simp at h
    · split at h
      · split at h
        · simp only [Prod.mk.injEq, Option.some.injEq] at h
          obtain ⟨rfl, rfl, rfl⟩ := h
          exact (dropConsec_suffix data).isInfix
        · simp at h
      · simp only [Prod.mk.injEq, Option.some.injEq] at h
        obtain ⟨rfl, rfl, rfl⟩ := h
        exact (List.take_prefix _ (dropConsec data)).isInfix.trans (dropConsec_suffix data).isInfix
    · simp only [Prod.mk.injEq, Option.some.injEq] at h
      obtain ⟨rfl, rfl, rfl⟩ := h
      exact (List.take_prefix _ data).isInfix

/-- C9: the splitter is total and well-behaved: on every input pair the
returned error is nil, the advance is between 0 and the buffer length, and
the token, when present, is a contiguous subslice of the buffer. -/
theorem c9_splitter_total (data : List Nat) (atEOF : Bool) :
    (scanRecord data atEOF).2.2 = none ∧
    (scanRecord data atEOF).1 ≤ data.length ∧
    ((scanRecord data atEOF).2.1).elim True (fun t => t <:+: data) := by
  refine ⟨scanRecord_err data atEOF, scanRecord_adv_le data atEOF, ?_⟩
  cases hr : (scanRecord data atEOF).2.1 with
  | none => trivial
  | some t =>
    have h : scanRecord data atEOF =
        ((scanRecord data atEOF).1, (scanRecord data atEOF).2.1, (scanRecord data atEOF).2.2) := rfl
    rw [hr, scanRecord_err data atEOF] at h
    exact scanRecord_tok_infix h

/-- C8: the claim says that with `atEOF = false` the splitter never emits a
length-0 token.  It does: when the first record separator sits at offset 1,
the single byte before it is dropped as the assumed line-feed slot and the
emitted token is empty, here on the buffer `a` RS `1` with more input still
possible. -/
theorem c8_counterexample : scanRecord [0x61, rs, 0x31] false = (1, some [], none) := by
  decide

/-- C8 (amended): with `atEOF = false` the splitter either requests more data
(advance 0, no token) or emits a token with advance at least 1; the emitted
token is non-empty except exactly when the first record separator of the
buffer is at offset 1, in which case the token is empty (the one byte before
the separator is dropped as the assumed trailing line-feed slot). -/
theorem c8_nonempty_token_amended (data : List Nat) :
    scanRecord data false = (0, none, none) ∨
    ∃ adv tok, scanRecord data false = (adv, some tok, none) ∧ 1 ≤ adv ∧
      ((∃ c t, tok = c :: t) ∨ (tok = [] ∧ indexByte data rs = some 1)) := by
  unfold scanRecord
  rw [if_neg (by simp)]
  cases hi : indexByte data rs with
  | none => exact Or.inl rfl
  | some i =>
    cases i with
    | zero =>
      cases hj : indexByte (dropConsec data).tail rs with
      | none => exact Or.inl rfl
      | some j =>
        refine Or.inr ⟨1 + j, (dropConsec data).take (1 + j), rfl, by omega, Or.inl ?_⟩
        have htail := indexByte_ne_nil hj
        cases hd : dropConsec data with
        | nil => rw [hd] at htail; simp at htail
        | cons x xs =>
          refine ⟨x, xs.take j, ?_⟩
          rw [Nat.add_comm 1 j, List.take_succ_cons]
    | succ k =>
      refine Or.inr ⟨k + 1, data.take k, rfl, by omega, ?_⟩
      cases k with
      | zero => exact Or.inr ⟨by simp, rfl⟩
      | succ k2 =>
        have hlt := indexByte_lt_length hi
        cases data with
        | nil => simp at hlt
        | cons x xs => exact Or.inl ⟨x, xs.take k2, List.take_succ_cons⟩

theorem scanRecord_emit_append {s1 : List Nat} {adv : Nat} {tok : List Nat} {e : Option String}
    (h : scanRecord s1 false = (adv, some tok, e)) (s2 : List Nat) (eof : Bool) :
    scanRecord (s1 ++ s2) eof = (adv, some tok, e) := by
  unfold scanRecord at h
  rw [if_neg (by simp)] at h
  cases hi : indexByte s1 rs with
  | none => simp [hi] at h
  | some i =>
    have hs1 : s1 ≠ [] := indexByte_ne_nil hi
    have htop : ¬((eof : Prop) ∧ s1 ++ s2 = []) := by
      intro hc
      exact hs1 (List.append_eq_nil.mp hc.2).1
    cases i with
    | zero =>
      cases hj : indexByte (dropConsec s1).tail rs with
      | none => simp [hi, hj] at h
      | some j =>
        simp only [hi, hj, Prod.mk.injEq, Option.some.injEq] at h
        obtain ⟨rfl, rfl, rfl⟩ := h
        have hdne : dropConsec s1 ≠ [] := dropConsec_ne_nil s1 hs1
        have htailne : (dropConsec s1).tail ≠ [] := indexByte_ne_nil hj
        have hdlen2 : 2 ≤ (dropConsec s1).length := by
          cases hdc : dropConsec s1 with
          | nil => exact absurd hdc hdne
          | cons x xs =>
            cases xs with
            | nil =>
              rw [hdc] at htailne
              simp at htailne
            | cons y ys =>
              simp only [List.length_cons]
              omega
        have hjlt := indexByte_lt_length hj
        have hdapp : dropConsec (s1 ++ s2) = dropConsec s1 ++ s2 :=
          dropConsec_append s1 s2 hdlen2
        have htl : (dropConsec s1 ++ s2).tail = (dropConsec s1).tail ++ s2 := by
          cases hdc : dropConsec s1 with
          | nil => exact absurd hdc hdne
          | cons x xs => simp
        have hlen : 1 + j ≤ (dropConsec s1).length := by
          have := List.length_tail (dropConsec s1)
          omega
        unfold scanRecord
        rw [if_neg htop]
        simp only [indexByte_append_some s2 hi, hdapp, htl, indexByte_append_some s2 hj,
          List.take_append_of_le_length hlen]
    | succ k =>
      simp only [hi, Prod.mk.injEq, Option.some.injEq] at h
      obtain ⟨rfl, rfl, rfl⟩ := h
      have hk : k ≤ s1.length := by
        have := indexByte_lt_length hi
        omega
      unfold scanRecord
      rw [if_neg htop]
      simp only [indexByte_append_some s2 hi, List.take_append_of_le_length hk]

theorem streamRunFuel_congr : ∀ (f1 : Nat) (buf : List Nat) (f2 : Nat),
    buf.length < f1 → buf.length < f2 → streamRunFuel f1 buf = streamRunFuel f2 buf := by
  intro f1
  induction f1 with
  | zero => intro buf f2 h1 _; omega
  | succ g ih =>
    intro buf f2 h1 h2
    cases f2 with
    | zero => omega
    | succ g2 =>
      rcases htok : scanRecord buf false with ⟨adv, tok, e⟩
      cases tok with
      | none => simp only [streamRunFuel, htok]
      | some t =>
        have hpos : 1 ≤ adv := scanRecord_some_pos htok
        have hne : buf ≠ [] := by
          intro hnil
          rw [hnil, scanRecord_nil] at htok
          simp at htok
        have hlen := List.length_pos.mpr hne
        simp only [streamRunFuel, htok]
        rw [ih (buf.drop adv) g2 (by simp only [List.length_drop]; omega)
          (by simp only [List.length_drop]; omega)]

/-- C6: streaming-boundary insensitivity of the splitter: feeding a chunk
`s1` to `scanRecord` first (not at end of stream) and appending `s2` before
the subsequent calls produces the same token sequence as feeding `s1 ++ s2`
in one buffer. -/
theorem c6_streaming_boundary (s1 s2 : List Nat) :
    tokensTwoChunk s1 s2 = streamRun (s1 ++ s2) := by
  rcases htok : scanRecord s1 false with ⟨adv, tok, e⟩
  cases tok with
  | none => simp only [tokensTwoChunk, htok]
  | some t =>
    have happ := scanRecord_emit_append htok s2 false
    have hpos : 1 ≤ adv := scanRecord_some_pos htok
    have hadvle : adv ≤ s1.length := by
      have := scanRecord_adv_le s1 false
      rw [htok] at this
      exact this
    have hne : s1 ≠ [] := by
      intro hnil
      rw [hnil, scanRecord_nil] at htok
      simp at htok
    have hlenpos := List.length_pos.mpr hne
    simp only [tokensTwoChunk, htok]
    conv_rhs => rw [streamRun]
    simp only [streamRunFuel, happ]
    rw [List.drop_append_of_le_length hadvle]
    congr 1
    rw [streamRun]
    apply streamRunFuel_congr
    · simp only [List.length_append, List.length_drop]
      omega
    · simp only [List.length_append, List.length_drop]
      omega

theorem decodeStep_continue_shrink {buf : List Nat} {r : DecodeResult} {buf2 : List Nat}
    (h : decodeStep buf = (r, buf2)) (hr1 : r ≠ DecodeResult.eof)
    (hr2 : r ≠ DecodeResult.panicked) :
    buf2.length < buf.length := by
  unfold decodeStep at h
  split at h
  · simp only [Prod.mk.injEq] at h
    exact absurd h.1.symm hr1
  · next adv tok e2 hs =>
    have hpos : 1 ≤ adv := scanRecord_some_pos hs
    have hne : buf ≠ [] := by
      intro hnil
      rw [hnil, scanRecord_nil] at hs
      simp at hs
    have hlen := List.length_pos.mpr hne
    split at h
    · simp only [Prod.mk.injEq] at h
      exact absurd h.1.symm hr2
    · simp only [Prod.mk.injEq] at h
      obtain ⟨-, rfl⟩ := h
      simp only [List.length_drop]
      omega

theorem decodeAllFuel_congr : ∀ (f1 : Nat) (buf : List Nat) (f2 : Nat),
    buf.length < f1 → buf.length < f2 → decodeAllFuel f1 buf = decodeAllFuel f2 buf := by
  intro f1
  induction f1 with
  | zero => intro buf f2 h1 _; omega
  | succ g ih =>
    intro buf f2 h1 h2
    cases f2 with
    | zero => omega
    | succ g2 =>
      rcases hs : decodeStep buf with ⟨r, buf2⟩
      cases r with
      | eof => simp only [decodeAllFuel, hs]
      | panicked => simp only [decodeAllFuel, hs]
      | value vb =>
        have hshrink := decodeStep_continue_shrink hs (by simp) (by simp)
        simp only [decodeAllFuel, hs]
        rw [ih buf2 g2 (by omega) (by omega)]
      | invalid vb =>
        have hshrink := decodeStep_continue_shrink hs (by simp) (by simp)
        simp only [decodeAllFuel, hs]
        rw [ih buf2 g2 (by omega) (by omega)]

/-- C10: an invalid record does not poison the decode stream: when a
`Decoder.Decode` step returns the invalid-record error for one record, the
decode loop emits that error and continues decoding from the remaining
buffer, exactly as a fresh decoder on that buffer would — one bad record
never ends the loop early. -/
theorem c10_invalid_no_poison (buf b buf2 : List Nat)
    (h : decodeStep buf = (DecodeResult.invalid b, buf2)) :
    decodeAll buf = DecodeResult.invalid b :: decodeAll buf2 := by
  have hshrink : buf2.length < buf.length :=
    decodeStep_continue_shrink h (by simp) (by simp)
  conv_lhs => rw [decodeAll]
  simp only [decodeAllFuel, h]
  rw [decodeAll]
  congr 1
  exact decodeAllFuel_congr buf.length buf2 (buf2.length + 1) hshrink (by omega)

/-- C10 witness: on the concrete stream RS `1234` RS `{"a":1}` LF the first
decode step returns the invalid-record error for `1234`, the loop continues,
and the following record `{"a":1}` LF is still decoded as a value. -/
theorem c10_invalid_no_poison_witness :
    decodeStep ([rs, 0x31, 0x32, 0x33, 0x34] ++ [rs] ++ objBytes ++ [lf]) =
      (DecodeResult.invalid [0x31, 0x32, 0x33, 0x34], [rs] ++ objBytes ++ [lf]) ∧
    decodeAll ([rs, 0x31, 0x32, 0x33, 0x34] ++ [rs] ++ objBytes ++ [lf]) =
      DecodeResult.invalid [0x31, 0x32, 0x33, 0x34] :: decodeAll ([rs] ++ objBytes ++ [lf]) ∧
    decodeAll ([rs] ++ objBytes ++ [lf]) = [DecodeResult.value (objBytes ++ [lf])] :=
  ⟨by decide, c10_invalid_no_poison _ _ _ (by decide), by decide⟩

/-- C7: the claim says writing `{"a":1}` with `WriteRecord` and then
splitting and classifying round-trips to exactly the bytes `{"a":1}` with
`complete = true`.  The splitter does return the whole written record as one
token, but the classifier keeps the trailing line feed in the value bytes,
so the round trip yields `{"a":1}` LF, not `{"a":1}`. -/
theorem c7_round_trip_eval :
    splitAll (writeRecord objBytes) = [writeRecord objBytes] ∧
    recordValue (writeRecord objBytes) = some (objBytes ++ [lf], true) ∧
    objBytes ++ [lf] ≠ objBytes := by
  decide

end Jsonseq
